import Mathlib

/-!
Shallow embedding of `electrovoyage_asset_unpacker` (src/__init__.py).

Python strings are modelled as `List Char`, byte strings as `List Nat`.
Values produced by `eval` of the decompressed payload are modelled by the
inductive type `Value` (ints, strings, bytes, lists, dicts).  The gzip
decompressor and the payload parser (`eval` + `decode`) are external
collaborators and appear as function parameters; filesystem writes during
extraction are recorded as an explicit list of `FsAct`s.
-/

/-- Python `str`, modelled as a list of characters. -/
abbrev Str := List Char

/-- The 8-byte archive marker `b"!PACKED\n"` (ASCII codes). -/
def markerB : List Nat := [33, 80, 65, 67, 75, 69, 68, 10]

/-- Key `"tree"` of the deserialized document. -/
def treeKey : Str := ['t', 'r', 'e', 'e']

/-- Key `"dirinfo"` of the deserialized document. -/
def dirinfoKey : Str := ['d', 'i', 'r', 'i', 'n', 'f', 'o']

/-- Key `"files"` of a dirinfo record. -/
def filesKey : Str := ['f', 'i', 'l', 'e', 's']

/-- Key `"dirs"` of a dirinfo record. -/
def dirsKey : Str := ['d', 'i', 'r', 's']

/-- The literal `"resources"` anchor used by the emulator. -/
def resourcesS : Str := ['r', 'e', 's', 'o', 'u', 'r', 'c', 'e', 's']

/-- `bytes.startswith`: does the second list start with the first? -/
def startsWith : List Nat → List Nat → Bool
  | [], _ => true
  | _ :: _, [] => false
  | a :: as, b :: bs => a == b && startsWith as bs

/-- Does `pat` occur (as a contiguous run) anywhere in the buffer?  This is the
left-to-right scan notion matching Python `bytes.replace`. -/
def occurs (pat : List Nat) : List Nat → Bool
  | [] => startsWith pat []
  | c :: rest => startsWith pat (c :: rest) || occurs pat rest

/-- Fuelled scan of `bytes.replace(pat, b"")` for the fixed marker pattern:
at each position, if the marker starts here, skip its 8 bytes and continue
after it, otherwise keep the byte and continue.  One unit of fuel is spent
per step, so fuel `s.length` always suffices. -/
def stripMarkerF : Nat → List Nat → List Nat
  | 0, s => s
  | _ + 1, [] => []
  | n + 1, c :: rest =>
    if startsWith markerB (c :: rest) then stripMarkerF n ((c :: rest).drop 8)
    else c :: stripMarkerF n rest

/-- `content.replace(b"!PACKED\n", b"")`: remove every scan occurrence of the
marker, scanning left to right and continuing after each removal. -/
def stripMarker (s : List Nat) : List Nat := stripMarkerF s.length s

/-- Python `str.split(sep)` for a one-character separator. -/
def pySplitC (sep : Char) : Str → List Str
  | [] => [[]]
  | c :: rest =>
    match pySplitC sep rest with
    | [] => [[]]
    | seg :: segs => if c = sep then [] :: seg :: segs else (c :: seg) :: segs

/-- `posixpath.join(a, *ps)`. -/
def pyJoin (a : Str) (ps : List Str) : Str :=
  match ps with
  | [] => a
  | b :: rest =>
    pyJoin
      (if b.head? = some '/' then b
       else if a = [] ∨ a.getLast? = some '/' then a ++ b
       else a ++ '/' :: b) rest

/-- A Python value as produced by `eval` of the decompressed payload. -/
inductive Value where
  | vbytes (b : List Nat)
  | vstr (s : Str)
  | vint (n : Int)
  | vlist (l : List Value)
  | vdict (entries : List (Str × Value))

/-- Error conditions surfaced by the unpacker (Python exception kinds). -/
inductive Err where
  | missingHeader
  | decompressionFailure
  | evalError
  | keyError (k : Str)
  | typeError
  | attributeError
  | sourceUnreadable
  | valueError
  deriving DecidableEq

/-- Dictionary lookup (Python dicts have unique keys; first match). -/
def dget : List (Str × Value) → Str → Option Value
  | [], _ => none
  | (k, v) :: rest, q => if k = q then some v else dget rest q

/-- Python subscript `v[k]` for a string key: `KeyError` when the key is
missing from a dict, `TypeError` when `v` is not subscriptable by strings. -/
def getItem (v : Value) (k : Str) : Except Err Value :=
  match v with
  | .vdict es =>
    match dget es k with
    | some w => .ok w
    | none => .error (.keyError k)
  | _ => .error .typeError

/-- In-memory `AssetPack` state: retained source path plus the two decoded
fields (assigned from the document without any shape validation). -/
structure Pack where
  path : Str
  tree : Value
  dirinfo : Value

/-- An in-memory byte stream as returned by `BytesIO(...)`. -/
structure ByteStream where
  buf : List Nat
  pos : Nat

/-- `BytesIO.read()`: the remaining bytes, and the stream at end position. -/
def ByteStream.read (s : ByteStream) : List Nat × ByteStream :=
  (s.buf.drop s.pos, ⟨s.buf, s.buf.length⟩)

/-- The constructor's `file` argument: a path, or an already-open stream whose
`name` attribute may be absent (e.g. `BytesIO`). -/
inductive Source where
  | path (p : Str)
  | stream (content : List Nat) (name : Option Str)

/-- Body of `AssetPack.__init__` after the header check: decompress the
stripped buffer, `eval` the decoded text, then read the two document keys
(`tree` first, then `dirinfo`). -/
def initBody (d : List Nat → Option (List Nat)) (p : List Nat → Option Value)
    (pathv : Str) (stripped : List Nat) : Except Err Pack :=
  match d stripped with
  | none => .error .decompressionFailure
  | some payload =>
    match p payload with
    | none => .error .evalError
    | some doc =>
      match getItem doc treeKey with
      | .error er => .error er
      | .ok t =>
        match getItem doc dirinfoKey with
        | .error er => .error er
        | .ok di => .ok ⟨pathv, t, di⟩

/-- `AssetPack.__init__` on an already-read buffer: check the marker, strip
every occurrence of it, then run the rest of the pipeline. -/
def initContent (d : List Nat → Option (List Nat)) (p : List Nat → Option Value)
    (pathv : Str) (content : List Nat) : Except Err Pack :=
  if startsWith markerB content then initBody d p pathv (stripMarker content)
  else .error .missingHeader

/-- `AssetPack.__init__`: read the source.  A path is opened and read via the
filesystem `fs`; a stream is read directly and its `name` recorded as the
retained path (`AttributeError` when the stream has no `name`).  The
`emulated` flag is accepted but never used by the body. -/
def AssetPack.init (fs : Str → Option (List Nat)) (d : List Nat → Option (List Nat))
    (p : List Nat → Option Value) (src : Source) (emulated : Bool) : Except Err Pack :=
  match src with
  | .path pa =>
    match fs pa with
    | none => .error .sourceUnreadable
    | some content => initContent d p pa content
  | .stream content name =>
    match name with
    | none => .error .attributeError
    | some n => initContent d p n content

/-- `AssetPack.reload`: `self.__init__(self.path)` (with default `emulated=False`). -/
def AssetPack.reload (fs : Str → Option (List Nat)) (d : List Nat → Option (List Nat))
    (p : List Nat → Option Value) (pack : Pack) : Except Err Pack :=
  AssetPack.init fs d p (.path pack.path) false

/-- `AssetPack.getfile`: `BytesIO(self.tree[filepath])`. -/
def getfile (pack : Pack) (fp : Str) : Except Err ByteStream :=
  match pack.tree with
  | .vdict es =>
    match dget es fp with
    | none => .error (.keyError fp)
    | some (.vbytes b) => .ok ⟨b, 0⟩
    | some _ => .error .typeError
  | _ => .error .typeError

/-- `AssetPack.getDir`: returns `self.dirinfo`. -/
def getDir (pack : Pack) : Value := pack.dirinfo

/-- `AssetPack.listobjects`: `list(self.tree.keys())`. -/
def listobjects (pack : Pack) : Except Err (List Str) :=
  match pack.tree with
  | .vdict es => .ok (es.map Prod.fst)
  | _ => .error .attributeError

/-- `AssetPack.getDirList`: `list(self.dirinfo.keys())`. -/
def getDirList (pack : Pack) : Except Err (List Str) :=
  match pack.dirinfo with
  | .vdict es => .ok (es.map Prod.fst)
  | _ => .error .attributeError

/-- A temporary file as returned by `exportToTempfile`: its name suffix and
its written content. -/
structure TempFile where
  suffix : Str
  content : List Nat

/-- `AssetPack.exportToTempfile`: create a temporary file with suffix
`"." + packpath.split(".")[-1]`, then write `getfile(packpath).read()`. -/
def exportToTempfile (pack : Pack) (packpath : Str) : Except Err TempFile :=
  let suf := '.' :: (pySplitC '.' packpath).getLastD []
  match getfile pack packpath with
  | .error er => .error er
  | .ok bs => .ok ⟨suf, bs.read.1⟩

/-- A filesystem effect performed during extraction: `makedirs(p)`,
`open(p, "wb")` (creates/truncates), or a completed write of bytes to `p`. -/
inductive FsAct where
  | mkdir (p : Str)
  | openw (p : Str)
  | write (p : Str) (b : List Nat)
  deriving DecidableEq

/-- `AssetPack.exportfile(packpath, exp_path)`: open the destination for
writing first, then look the asset up and write its bytes. -/
def exportfileActs (tree : Value) (packpath expPath : Str) : List FsAct × Option Err :=
  match tree with
  | .vdict tes =>
    match dget tes packpath with
    | some (.vbytes b) => ([.openw expPath, .write expPath b], none)
    | some _ => ([.openw expPath], some .typeError)
    | none => ([.openw expPath], some (.keyError packpath))
  | _ => ([.openw expPath], some .typeError)

/-- Python `for x in v`: the element sequence of an iterable value. -/
def iterElems : Value → Option (List Value)
  | .vlist l => some l
  | .vstr s => some (s.map (fun c => .vstr [c]))
  | .vdict es => some (es.map (fun kv => .vstr kv.1))
  | .vbytes b => some (b.map (fun n => .vint (Int.ofNat n)))
  | .vint _ => none

/-- The subdirectory loop of `extract`: `makedirs(join(epath, *key.split('/'), dir))`
for each dir entry (TypeError when an entry is not a string). -/
def dirSteps (e d : Str) : List Value → List FsAct × Option Err
  | [] => ([], none)
  | .vstr s :: rest =>
    let r := dirSteps e d rest
    (FsAct.mkdir (pyJoin e (pySplitC '/' d ++ [s])) :: r.1, r.2)
  | _ :: _ => ([], some .typeError)

/-- The file loop of `extract`: `exportfile(key + '/' + file, join(epath, *key.split('/'), file))`
for each file entry (TypeError when an entry is not a string). -/
def fileSteps (tree : Value) (e d : Str) : List Value → List FsAct × Option Err
  | [] => ([], none)
  | .vstr f :: rest =>
    match exportfileActs tree (d ++ '/' :: f) (pyJoin e (pySplitC '/' d ++ [f])) with
    | (as, some er) => (as, some er)
    | (as, none) =>
      let r := fileSteps tree e d rest
      (as ++ r.1, r.2)
  | _ :: _ => ([], some .typeError)

/-- The main loop of `extract` over `dirinfo.items()`: for each entry, create
the directory, read its `files` and `dirs` fields, create the subdirectories,
then export each file; the first error aborts the remaining work. -/
def extractLoop (tree : Value) (e : Str) : List (Str × Value) → List FsAct × Option Err
  | [] => ([], none)
  | (d, v) :: rest =>
    let a0 := FsAct.mkdir (pyJoin e (pySplitC '/' d))
    match getItem v filesKey with
    | .error er => ([a0], some er)
    | .ok fv =>
      match getItem v dirsKey with
      | .error er => ([a0], some er)
      | .ok dv =>
        match iterElems dv with
        | none => ([a0], some .typeError)
        | some ds =>
          match dirSteps e d ds with
          | (as1, some er) => (a0 :: as1, some er)
          | (as1, none) =>
            match iterElems fv with
            | none => (a0 :: as1, some .typeError)
            | some fs =>
              match fileSteps tree e d fs with
              | (as2, some er) => (a0 :: as1 ++ as2, some er)
              | (as2, none) =>
                let r := extractLoop tree e rest
                (a0 :: as1 ++ as2 ++ r.1, r.2)

/-- `AssetPack.extract(epath)`: walk `self.dirinfo.items()` (AttributeError
when `dirinfo` is not a dict), recording every filesystem effect in order
together with the error, if any, that aborted the walk. -/
def extract (pack : Pack) (e : Str) : List FsAct × Option Err :=
  match pack.dirinfo with
  | .vdict des => extractLoop pack.tree e des
  | _ => ([], some .attributeError)

/-- The bytes a path holds after a sequence of actions ran (later actions win;
`open(p, "wb")` alone leaves an empty file). -/
def finalContent : List FsAct → Str → Option (List Nat)
  | [], _ => none
  | a :: rest, p =>
    match finalContent rest p with
    | some b => some b
    | none =>
      match a with
      | .write q b => if q = p then some b else none
      | .openw q => if q = p then some [] else none
      | .mkdir _ => none

/-- Segment normalization inside `posixpath.normpath` on an absolute path:
drop empty and `"."` segments, let `".."` pop the previous segment. -/
def normAcc (acc : List Str) : List Str → List Str
  | [] => acc
  | s :: rest =>
    if s = [] ∨ s = ['.'] then normAcc acc rest
    else if s = ['.', '.'] then normAcc acc.dropLast rest
    else normAcc (acc ++ [s]) rest

/-- Component list of `posixpath.abspath(s)` given the current working
directory `cwd` (as an absolute, already-normalized component list). -/
def absComps (cwd : List Str) (s : Str) : List Str :=
  normAcc [] ((if s.head? = some '/' then [] else cwd) ++ pySplitC '/' s)

/-- Length of the common prefix of two component lists. -/
def commonLen : List Str → List Str → Nat
  | a :: as, b :: bs => if a = b then commonLen as bs + 1 else 0
  | _, _ => 0

/-- `posixpath.relpath(p, start)` relative to the working directory `cwd`
(`ValueError` on an empty path, hence `Option`). -/
def pyRelpath (cwd : List Str) (p start : Str) : Option Str :=
  if p = [] then none
  else
    let sl := absComps cwd start
    let pl := absComps cwd p
    let i := commonLen sl pl
    match List.replicate (sl.length - i) ['.', '.'] ++ pl.drop i with
    | [] => some ['.']
    | r0 :: rrest => some (pyJoin r0 rrest)

/-- `AssetPackEmulator` state: just the base folder. -/
structure Emulator where
  basefolder : Str

/-- The filesystem path `AssetPackEmulator.getfile` opens:
`join(self.basefolder, *relpath(filepath, 'resources').split('/'))`. -/
def emuGetfilePath (cwd : List Str) (base : Str) (p : Str) : Option Str :=
  (pyRelpath cwd p resourcesS).map (fun r => pyJoin base (pySplitC '/' r))

/-- `AssetPackEmulator.getfile`: open the resolved path for reading. -/
def emuGetfile (fs : Str → Option (List Nat)) (cwd : List Str) (em : Emulator)
    (p : Str) : Except Err (List Nat) :=
  match emuGetfilePath cwd em.basefolder p with
  | none => .error .valueError
  | some pp =>
    match fs pp with
    | some b => .ok b
    | none => .error .sourceUnreadable

/-- The string elements of a list of values (used to name the files/dirs an
entry lists once their well-formedness is known). -/
def strsOf (l : List Value) : List Str :=
  l.flatMap (fun x => match x with | .vstr s => [s] | _ => [])

/-- The filenames listed by a dirinfo entry value. -/
def filesOfV (v : Value) : List Str :=
  match getItem v filesKey with
  | .ok (.vlist l) => strsOf l
  | _ => []

/-- The subdirectory names listed by a dirinfo entry value. -/
def dirsOfV (v : Value) : List Str :=
  match getItem v dirsKey with
  | .ok (.vlist l) => strsOf l
  | _ => []

/-- The stored bytes of asset `k` in a well-formed tree (default `[]`). -/
def treeBytes (tree : Value) (k : Str) : List Nat :=
  match tree with
  | .vdict tes =>
    match dget tes k with
    | some (.vbytes b) => b
    | _ => []
  | _ => []

/-- The actions the file loop of one dirinfo entry performs when every listed
file is present: open then write, per file. -/
def entryFileActs (tree : Value) (e d : Str) (fs : List Str) : List FsAct :=
  fs.flatMap (fun f =>
    [.openw (pyJoin e (pySplitC '/' d ++ [f])),
     .write (pyJoin e (pySplitC '/' d ++ [f])) (treeBytes tree (d ++ '/' :: f))])

/-- All actions one dirinfo entry performs on the success path. -/
def entryActsD (tree : Value) (e : Str) (dv : Str × Value) : List FsAct :=
  .mkdir (pyJoin e (pySplitC '/' dv.1)) ::
    ((dirsOfV dv.2).map (fun s => .mkdir (pyJoin e (pySplitC '/' dv.1 ++ [s]))) ++
      entryFileActs tree e dv.1 (filesOfV dv.2))

/-- All actions `extract` performs on the success path. -/
def allActs (tree : Value) (e : Str) (des : List (Str × Value)) : List FsAct :=
  des.flatMap (entryActsD tree e)

/-- A clean path segment: nonempty, without a separator. -/
def cleanSeg (s : Str) : Prop := s ≠ [] ∧ '/' ∉ s

/-- A clean directory key: the root `""`, or made of clean segments. -/
def cleanDir (d : Str) : Prop := d = [] ∨ ∀ s ∈ pySplitC '/' d, cleanSeg s

/-- Every `open(p, "wb")` in the action list is immediately followed by a
write of `b` to `p` (the shape `exportfile` produces on success). -/
def noLoneOpen (p : Str) (b : List Nat) (acts : List FsAct) : Prop :=
  ∀ l1 l2, acts = l1 ++ FsAct.openw p :: l2 → ∃ l3, l2 = FsAct.write p b :: l3

/-- Every write to `p` in the action list writes the same bytes `b`. -/
def writesConst (p : Str) (b : List Nat) (acts : List FsAct) : Prop :=
  ∀ b', FsAct.write p b' ∈ acts → b' = b

/-- The document a `tree`/`dirinfo` pair serializes to: a two-key mapping
with byte-string leaves under `tree`. -/
def docOf (treeEs : List (Str × List Nat)) (dirEs : List (Str × Value)) : Value :=
  .vdict [(treeKey, .vdict (treeEs.map (fun kv => (kv.1, Value.vbytes kv.2)))),
    (dirinfoKey, .vdict dirEs)]

/-! Lemmas about the marker scan. -/

theorem startsWith_iff (p : List Nat) : ∀ l, startsWith p l = true ↔ p <+: l := by
  induction p with
  | nil => intro l; simp [startsWith]
  | cons a as ih =>
    intro l
    cases l with
    | nil => simp [startsWith]
    | cons b bs =>
      simp [startsWith, List.cons_prefix_cons, ih, Bool.and_eq_true, beq_iff_eq]

theorem startsWith_self_append (p t : List Nat) : startsWith p (p ++ t) = true :=
  (startsWith_iff p _).2 (List.prefix_append p t)

theorem occurs_cons (pat : List Nat) (c : Nat) (rest : List Nat) :
    occurs pat (c :: rest) = (startsWith pat (c :: rest) || occurs pat rest) := rfl

theorem take_prefix_take (l : List Nat) (m n : Nat) (h : m ≤ n) : l.take m <+: l.take n := by
  refine ⟨(l.drop m).take (n - m), ?_⟩
  rw [← List.take_add]
  congr 1
  omega

theorem stripMarkerF_congr : ∀ (m n : Nat) (s : List Nat), s.length ≤ m → s.length ≤ n →
    stripMarkerF m s = stripMarkerF n s := by
  intro m
  induction m with
  | zero =>
    intro n s hm _
    have hs : s = [] := List.eq_nil_of_length_eq_zero (Nat.le_zero.mp hm)
    subst hs
    cases n <;> rfl
  | succ m ih =>
    intro n s hm hn
    cases s with
    | nil => cases n <;> rfl
    | cons c rest =>
      cases n with
      | zero => simp at hn
      | succ n' =>
        simp only [stripMarkerF]
        by_cases h : startsWith markerB (c :: rest) = true
        · rw [if_pos h, if_pos h]
          apply ih
          · simp only [List.length_drop, List.length_cons] at *
            omega
          · simp only [List.length_drop, List.length_cons] at *
            omega
        · rw [if_neg h, if_neg h]
          simp only [List.length_cons] at hm hn
          rw [ih n' rest (by omega) (by omega)]

theorem stripMarker_cons_of_not_marker (c : Nat) (rest : List Nat)
    (h : startsWith markerB (c :: rest) = false) :
    stripMarker (c :: rest) = c :: stripMarker rest := by
  show stripMarkerF (rest.length + 1) (c :: rest) = c :: stripMarkerF rest.length rest
  simp [stripMarkerF, h]

theorem stripMarkerF_succ_marker (n : Nat) (s : List Nat) :
    stripMarkerF (n + 1) (markerB ++ s) = stripMarkerF n s := rfl

theorem stripMarker_marker_append (s : List Nat) : stripMarker (markerB ++ s) = stripMarker s := by
  show stripMarkerF (markerB ++ s).length (markerB ++ s) = stripMarkerF s.length s
  have hl : (markerB ++ s).length = s.length + 7 + 1 := by
    simp only [List.length_append, markerB, List.length_cons, List.length_nil]
    omega
  rw [hl, stripMarkerF_succ_marker]
  exact stripMarkerF_congr _ _ s (by omega) le_rfl

theorem stripMarkerF_no_occ : ∀ (n : Nat) (s : List Nat), occurs markerB s = false →
    stripMarkerF n s = s := by
  intro n
  induction n with
  | zero => intro s _; rfl
  | succ n ih =>
    intro s h
    cases s with
    | nil => rfl
    | cons c rest =>
      rw [occurs_cons, Bool.or_eq_false_iff] at h
      simp [stripMarkerF, h.1, ih rest h.2]

theorem stripMarker_no_occ (s : List Nat) (h : occurs markerB s = false) : stripMarker s = s :=
  stripMarkerF_no_occ _ s h

theorem startsWith_of_marker_mid (u ys : List Nat) (hu : u ≠ [])
    (h : startsWith markerB (u ++ markerB ++ ys) = true) :
    startsWith markerB (u ++ List.take 7 markerB) = true := by
  rw [List.append_assoc] at h
  rw [startsWith_iff] at h ⊢
  rw [List.prefix_iff_eq_take] at h
  have h8 : markerB.length = 8 := rfl
  rw [h8] at h
  by_cases hlen : 8 ≤ u.length
  · rw [List.take_append_of_le_length hlen] at h
    have hpu : markerB <+: u := h ▸ List.take_prefix 8 u
    exact hpu.trans (List.prefix_append u _)
  · push_neg at hlen
    have hu1 : 1 ≤ u.length := List.length_pos.mpr hu
    rw [List.take_append_eq_append_take] at h
    have hu8 : u.take 8 = u := List.take_of_length_le (by omega)
    have hsub : (markerB ++ ys).take (8 - u.length) = markerB.take (8 - u.length) :=
      List.take_append_of_le_length (by rw [h8]; omega)
    rw [hu8, hsub] at h
    have h7 : markerB.take (8 - u.length) <+: markerB.take 7 :=
      take_prefix_take markerB _ 7 (by omega)
    obtain ⟨t, ht⟩ := h7
    refine ⟨t, ?_⟩
    conv_lhs => rw [h]
    rw [List.append_assoc, ht]

theorem stripMarker_mid : ∀ xs ys : List Nat,
    occurs markerB (xs ++ List.take 7 markerB) = false → occurs markerB ys = false →
    stripMarker (xs ++ markerB ++ ys) = xs ++ ys := by
  intro xs
  induction xs with
  | nil =>
    intro ys _ h2
    simp only [List.nil_append]
    rw [stripMarker_marker_append, stripMarker_no_occ ys h2]
  | cons c xs' ih =>
    intro ys h1 h2
    rw [List.cons_append, occurs_cons, Bool.or_eq_false_iff] at h1
    have hs : startsWith markerB (c :: (xs' ++ markerB ++ ys)) = false := by
      cases hsw : startsWith markerB (c :: (xs' ++ markerB ++ ys)) with
      | false => rfl
      | true =>
        have hsw' : startsWith markerB ((c :: xs') ++ markerB ++ ys) = true := by
          rw [List.cons_append, List.cons_append]
          exact hsw
        have h3 := startsWith_of_marker_mid (c :: xs') ys (by simp) hsw'
        rw [List.cons_append] at h3
        rw [h1.1] at h3
        simp at h3
    calc stripMarker ((c :: xs') ++ markerB ++ ys)
        = stripMarker (c :: (xs' ++ markerB ++ ys)) := by
          rw [List.cons_append, List.cons_append]
      _ = c :: stripMarker (xs' ++ markerB ++ ys) := stripMarker_cons_of_not_marker _ _ hs
      _ = c :: (xs' ++ ys) := by rw [ih ys h1.2 h2]
      _ = (c :: xs') ++ ys := rfl

/-! Small dictionary and split lemmas. -/

theorem pySplitC_of_not_mem (sep : Char) : ∀ s : Str, sep ∉ s → pySplitC sep s = [s] := by
  intro s
  induction s with
  | nil => intro _; rfl
  | cons c rest ih =>
    intro h
    have hc : c ≠ sep := fun he => h (he ▸ List.mem_cons_self c rest)
    have hr : sep ∉ rest := fun hm => h (List.mem_cons_of_mem c hm)
    simp [pySplitC, ih hr, hc]

/-- C2: for every input buffer that does not start with the 8-byte marker,
construction fails with the missing-header error kind, and the outcome is
the same for every decompressor and parser — decompression is never
attempted. -/
theorem c2_header_gate (content : List Nat) (h : startsWith markerB content = false)
    (d d' : List Nat → Option (List Nat)) (p p' : List Nat → Option Value) (pathv : Str) :
    initContent d p pathv content = .error .missingHeader ∧
    initContent d p pathv content = initContent d' p' pathv content := by
  simp [initContent, h]

theorem c2_header_gate_witness :
    startsWith markerB [0] = false ∧
    (initContent (fun _ => none) (fun _ => none) [] [0] = .error .missingHeader ∧
      initContent (fun _ => none) (fun _ => none) [] [0] =
        initContent (fun _ => some []) (fun _ => some (.vdict [])) [] [0]) :=
  ⟨by decide,
   c2_header_gate [0] (by decide) (fun _ => none) (fun _ => some [])
     (fun _ => none) (fun _ => some (.vdict [])) []⟩

/-- C3: for a buffer that starts with the marker, the codec removes every
scan occurrence of the marker — here both the leading one and an interior
one — and hands exactly the stripped bytes to the decompression stage. -/
theorem c3_strip_all (xs ys : List Nat)
    (h1 : occurs markerB (xs ++ List.take 7 markerB) = false)
    (h2 : occurs markerB ys = false) :
    stripMarker (markerB ++ xs ++ markerB ++ ys) = xs ++ ys ∧
    ∀ (d : List Nat → Option (List Nat)) (p : List Nat → Option Value) (pathv : Str),
      initContent d p pathv (markerB ++ xs ++ markerB ++ ys) = initBody d p pathv (xs ++ ys) := by
  have he : markerB ++ xs ++ markerB ++ ys = markerB ++ (xs ++ markerB ++ ys) := by
    simp [List.append_assoc]
  have hstrip : stripMarker (markerB ++ xs ++ markerB ++ ys) = xs ++ ys := by
    rw [he, stripMarker_marker_append, stripMarker_mid xs ys h1 h2]
  refine ⟨hstrip, fun d p pathv => ?_⟩
  have hsw : startsWith markerB (markerB ++ xs ++ markerB ++ ys) = true := by
    rw [he]
    exact startsWith_self_append _ _
  unfold initContent
  rw [hsw, hstrip]
  rfl

theorem c3_strip_all_witness :
    occurs markerB ([1] ++ List.take 7 markerB) = false ∧ occurs markerB [2] = false ∧
    stripMarker (markerB ++ [1] ++ markerB ++ [2]) = [1] ++ [2] ∧
    initContent (fun _ => none) (fun _ => none) [] (markerB ++ [1] ++ markerB ++ [2]) =
      initBody (fun _ => none) (fun _ => none) [] ([1] ++ [2]) :=
  ⟨by decide, by decide, (c3_strip_all [1] [2] (by decide) (by decide)).1,
   (c3_strip_all [1] [2] (by decide) (by decide)).2 (fun _ => none) (fun _ => none) []⟩

/-- C4 (amended): when the decompressed payload parses to a mapping, the
constructor fails with `KeyError("tree")` when the `tree` key is absent and
with `KeyError("dirinfo")` when only `dirinfo` is absent — the
corrupt-archive condition; values of the wrong shape are not checked. -/
theorem c4_missing_keys (d : List Nat → Option (List Nat)) (p : List Nat → Option Value)
    (pathv : Str) (content payload : List Nat) (es : List (Str × Value))
    (hm : startsWith markerB content = true)
    (hd : d (stripMarker content) = some payload)
    (hp : p payload = some (.vdict es)) :
    (dget es treeKey = none → initContent d p pathv content = .error (.keyError treeKey)) ∧
    (∀ t, dget es treeKey = some t → dget es dirinfoKey = none →
      initContent d p pathv content = .error (.keyError dirinfoKey)) := by
  constructor
  · intro hn
    simp [initContent, hm, initBody, hd, hp, getItem, hn]
  · intro t htree hn
    simp [initContent, hm, initBody, hd, hp, getItem, htree, hn]

theorem c4_missing_keys_witness :
    initContent (fun _ => some [0]) (fun _ => some (.vdict [])) [] markerB =
      .error (.keyError treeKey) :=
  (c4_missing_keys (fun _ => some [0]) (fun _ => some (.vdict [])) [] markerB [0] []
    (by decide) rfl rfl).1 rfl

/-- C4 counterexample: a payload whose document has both keys but a `tree`
value of the wrong shape (an int) is accepted — construction succeeds
instead of failing, refuting the wrong-shape half of the claim. -/
theorem c4_counterexample :
    initContent (fun _ => some [0])
      (fun _ => some (.vdict [(treeKey, .vint 5), (dirinfoKey, .vdict [])])) [] markerB =
      .ok ⟨[], .vint 5, .vdict []⟩ := rfl

/-- C5: looking up a present asset path returns a fresh stream positioned at
0 over exactly the stored bytes (reading it yields those bytes), and looking
up an absent path fails with the key-error (file-not-found) kind naming that
path. -/
theorem c5_getfile_contract (pack : Pack) (es : List (Str × Value)) (k : Str)
    (ht : pack.tree = .vdict es) :
    (∀ b, dget es k = some (.vbytes b) →
      getfile pack k = .ok ⟨b, 0⟩ ∧ (ByteStream.mk b 0).read.1 = b) ∧
    (dget es k = none → getfile pack k = .error (.keyError k)) := by
  constructor
  · intro b hb
    exact ⟨by simp [getfile, ht, hb], by simp [ByteStream.read]⟩
  · intro hn
    simp [getfile, ht, hn]

theorem c5_getfile_contract_witness :
    (getfile ⟨[], .vdict [(['a'], .vbytes [7])], .vdict []⟩ ['a'] = .ok ⟨[7], 0⟩ ∧
      (ByteStream.mk [7] 0).read.1 = [7]) ∧
    getfile ⟨[], .vdict [(['a'], .vbytes [7])], .vdict []⟩ ['b'] = .error (.keyError ['b']) :=
  ⟨(c5_getfile_contract ⟨[], .vdict [(['a'], .vbytes [7])], .vdict []⟩
      [(['a'], .vbytes [7])] ['a'] rfl).1 [7] rfl,
   (c5_getfile_contract ⟨[], .vdict [(['a'], .vbytes [7])], .vdict []⟩
      [(['a'], .vbytes [7])] ['b'] rfl).2 rfl⟩

/-- C7 (code bug): constructing from a stream without a `name` attribute
fails with `AttributeError` no matter the value of `emulated` (the parameter
is ignored and no reload-unsupported error exists), while `reload` simply
re-runs construction against the retained path. -/
theorem c7_stream_attrerror (content : List Nat) (emulated : Bool)
    (fs : Str → Option (List Nat)) (d : List Nat → Option (List Nat))
    (p : List Nat → Option Value) :
    AssetPack.init fs d p (.stream content none) emulated = .error .attributeError ∧
    ∀ pack : Pack, AssetPack.reload fs d p pack = AssetPack.init fs d p (.path pack.path) false :=
  ⟨rfl, fun _ => rfl⟩

/-- C10: exporting an asset whose path contains no dot creates the temporary
file with suffix `"." + packpath` — the whole asset path after the dot — and
succeeds, writing the stored bytes. -/
theorem c10_dotless_tempfile (pack : Pack) (es : List (Str × Value)) (p : Str) (b : List Nat)
    (ht : pack.tree = .vdict es) (hp : dget es p = some (.vbytes b)) (hnd : '.' ∉ p) :
    exportToTempfile pack p = .ok ⟨'.' :: p, b⟩ := by
  simp [exportToTempfile, getfile, ht, hp, pySplitC_of_not_mem '.' p hnd, ByteStream.read]

theorem c10_dotless_tempfile_witness :
    exportToTempfile ⟨[], .vdict [(['a'], .vbytes [1])], .vdict []⟩ ['a'] =
      .ok ⟨['.', 'a'], [1]⟩ :=
  c10_dotless_tempfile ⟨[], .vdict [(['a'], .vbytes [1])], .vdict []⟩
    [(['a'], .vbytes [1])] ['a'] [1] rfl rfl (by decide)

/-! Round-trip and extraction lemmas. -/

theorem dget_mem (l : List (Str × Value)) (q : Str) (v : Value) (h : dget l q = some v) :
    (q, v) ∈ l := by
  induction l with
  | nil => simp [dget] at h
  | cons kv rest ih =>
    obtain ⟨k', v'⟩ := kv
    by_cases hk : k' = q
    · subst hk
      simp [dget] at h
      subst h
      exact List.mem_cons_self _ _
    · simp [dget, hk] at h
      exact List.mem_cons_of_mem _ (ih h)

theorem dget_map_vbytes (l : List (Str × List Nat)) (k : Str) (b : List Nat)
    (hnd : (l.map Prod.fst).Nodup) (hmem : (k, b) ∈ l) :
    dget (l.map (fun kv => (kv.1, Value.vbytes kv.2))) k = some (.vbytes b) := by
  induction l with
  | nil => cases hmem
  | cons kv rest ih =>
    obtain ⟨k', b'⟩ := kv
    simp only [List.map_cons, List.nodup_cons] at hnd
    rcases List.mem_cons.mp hmem with heq | hm
    · obtain ⟨hk, hb⟩ := Prod.mk.injEq .. ▸ heq
      subst hk
      subst hb
      simp [dget]
    · have hkne : k' ≠ k := by
        intro he
        exact hnd.1 (he ▸ List.mem_map.mpr ⟨(k, b), hm, rfl⟩)
      simp only [List.map_cons, dget, hkne, if_false]
      exact ih hnd.2 hm

/-- C1 (amended): encoding a `tree`/`dirinfo` pair behind the marker and
decoding it reproduces the key sets and every stored byte string, provided
the compressed payload contains no occurrence of the marker bytes (the
global strip would otherwise corrupt it). -/
theorem c1_roundtrip (d : List Nat → Option (List Nat)) (p : List Nat → Option Value)
    (treeEs : List (Str × List Nat)) (dirEs : List (Str × Value))
    (payload ser : List Nat) (pathv : Str)
    (hnm : occurs markerB payload = false)
    (hd : d payload = some ser)
    (hp : p ser = some (docOf treeEs dirEs))
    (hnd : (treeEs.map Prod.fst).Nodup) :
    initContent d p pathv (markerB ++ payload) =
      .ok ⟨pathv, .vdict (treeEs.map (fun kv => (kv.1, Value.vbytes kv.2))), .vdict dirEs⟩ ∧
    listobjects ⟨pathv, .vdict (treeEs.map (fun kv => (kv.1, Value.vbytes kv.2))), .vdict dirEs⟩ =
      .ok (treeEs.map Prod.fst) ∧
    getDirList ⟨pathv, .vdict (treeEs.map (fun kv => (kv.1, Value.vbytes kv.2))), .vdict dirEs⟩ =
      .ok (dirEs.map Prod.fst) ∧
    ∀ k b, (k, b) ∈ treeEs →
      getfile ⟨pathv, .vdict (treeEs.map (fun kv => (kv.1, Value.vbytes kv.2))), .vdict dirEs⟩ k =
        .ok ⟨b, 0⟩ := by
  have hstrip : stripMarker (markerB ++ payload) = payload := by
    rw [stripMarker_marker_append, stripMarker_no_occ payload hnm]
  refine ⟨?_, ?_, ?_, ?_⟩
  · unfold initContent
    rw [startsWith_self_append, hstrip]
    simp +decide [initBody, hd, hp, docOf, getItem, dget, treeKey, dirinfoKey]
  · simp [listobjects, List.map_map, Function.comp]
  · simp [getDirList]
  · intro k b hm
    simp [getfile, dget_map_vbytes treeEs k b hnd hm]

theorem c1_roundtrip_witness :
    initContent (fun x => if x = [7] then some [9] else none)
      (fun s => if s = [9] then some (docOf [(['a'], [104, 105])] []) else none) []
      (markerB ++ [7]) =
      .ok ⟨[], .vdict [(['a'], .vbytes [104, 105])], .vdict []⟩ ∧
    listobjects ⟨[], .vdict [(['a'], .vbytes [104, 105])], .vdict []⟩ = .ok [['a']] ∧
    getDirList ⟨[], .vdict [(['a'], .vbytes [104, 105])], .vdict []⟩ = .ok [] ∧
    getfile ⟨[], .vdict [(['a'], .vbytes [104, 105])], .vdict []⟩ ['a'] =
      .ok ⟨[104, 105], 0⟩ :=
  ⟨(c1_roundtrip (fun x => if x = [7] then some [9] else none)
      (fun s => if s = [9] then some (docOf [(['a'], [104, 105])] []) else none)
      [(['a'], [104, 105])] [] [7] [9] [] (by decide) rfl rfl (by simp)).1,
   (c1_roundtrip (fun x => if x = [7] then some [9] else none)
      (fun s => if s = [9] then some (docOf [(['a'], [104, 105])] []) else none)
      [(['a'], [104, 105])] [] [7] [9] [] (by decide) rfl rfl (by simp)).2.1,
   (c1_roundtrip (fun x => if x = [7] then some [9] else none)
      (fun s => if s = [9] then some (docOf [(['a'], [104, 105])] []) else none)
      [(['a'], [104, 105])] [] [7] [9] [] (by decide) rfl rfl (by simp)).2.2.1,
   (c1_roundtrip (fun x => if x = [7] then some [9] else none)
      (fun s => if s = [9] then some (docOf [(['a'], [104, 105])] []) else none)
      [(['a'], [104, 105])] [] [7] [9] [] (by decide) rfl rfl (by simp)).2.2.2
     ['a'] [104, 105] (by simp)⟩

/-- C1 counterexample: a decompressor/compressor pair satisfying the
round-trip contract under which the compressed payload contains the marker
bytes: the global strip corrupts the payload and construction fails with a
decompression error instead of reproducing the original key sets. -/
theorem c1_counterexample :
    (fun y => if y = markerB ++ [0] then some [0] else none) (markerB ++ [0]) = some [0] ∧
    (fun s => if s = [0] then some (docOf [(['a'], [104, 105])] []) else none) [0] =
      some (docOf [(['a'], [104, 105])] []) ∧
    initContent (fun y => if y = markerB ++ [0] then some [0] else none)
      (fun s => if s = [0] then some (docOf [(['a'], [104, 105])] []) else none) []
      (markerB ++ (markerB ++ [0])) = .error .decompressionFailure :=
  ⟨rfl, rfl, rfl⟩

theorem dirSteps_none (e d : Str) : ∀ ds : List Value,
    (∀ x ∈ ds, ∃ s, x = Value.vstr s) → (dirSteps e d ds).2 = none := by
  intro ds
  induction ds with
  | nil => intro _; rfl
  | cons x rest ih =>
    intro h
    obtain ⟨s, hs⟩ := h x (List.mem_cons_self _ _)
    subst hs
    simp [dirSteps, ih (fun x hx => h x (List.mem_cons_of_mem _ hx))]

theorem fileSteps_none (tes : List (Str × Value)) (e d : Str) : ∀ fs : List Value,
    (∀ x ∈ fs, ∃ s, x = Value.vstr s) →
    (∀ s, Value.vstr s ∈ fs → ∃ b, dget tes (d ++ '/' :: s) = some (.vbytes b)) →
    (fileSteps (.vdict tes) e d fs).2 = none := by
  intro fs
  induction fs with
  | nil => intro _ _; rfl
  | cons x rest ih =>
    intro hstr hall
    obtain ⟨f, hf⟩ := hstr x (List.mem_cons_self _ _)
    subst hf
    obtain ⟨b, hb⟩ := hall f (List.mem_cons_self _ _)
    simp [fileSteps, exportfileActs, hb,
      ih (fun x hx => hstr x (List.mem_cons_of_mem _ hx))
        (fun s hs => hall s (List.mem_cons_of_mem _ hs))]

theorem fileSteps_missing (tes : List (Str × Value)) (e d : Str) : ∀ fs : List Value,
    (∀ x ∈ fs, ∃ s, x = Value.vstr s) →
    (∀ kv ∈ tes, ∃ b, kv.2 = Value.vbytes b) →
    (∃ s, Value.vstr s ∈ fs ∧ dget tes (d ++ '/' :: s) = none) →
    ∃ k, (fileSteps (.vdict tes) e d fs).2 = some (.keyError k) ∧ dget tes k = none := by
  intro fs
  induction fs with
  | nil =>
    intro _ _ hm
    obtain ⟨s, hs, _⟩ := hm
    cases hs
  | cons x rest ih =>
    intro hstr htb hm
    obtain ⟨f, hf⟩ := hstr x (List.mem_cons_self _ _)
    subst hf
    cases hlook : dget tes (d ++ '/' :: f) with
    | none =>
      refine ⟨d ++ '/' :: f, ?_, hlook⟩
      simp [fileSteps, exportfileActs, hlook]
    | some v =>
      obtain ⟨b, hb⟩ := htb _ (dget_mem tes _ v hlook)
      subst hb
      have hrest : ∃ s, Value.vstr s ∈ rest ∧ dget tes (d ++ '/' :: s) = none := by
        obtain ⟨s, hsm, hsn⟩ := hm
        rcases List.mem_cons.mp hsm with he | hmr
        · have hsf : s = f := by injection he
          rw [hsf] at hsn
          rw [hsn] at hlook
          cases hlook
        · exact ⟨s, hmr, hsn⟩
      obtain ⟨k, hk2, hkn⟩ := ih (fun x hx => hstr x (List.mem_cons_of_mem _ hx)) htb hrest
      refine ⟨k, ?_, hkn⟩
      simp [fileSteps, exportfileActs, hlook, hk2]

theorem extractLoop_missing (tes : List (Str × Value)) (e : Str) :
    ∀ des : List (Str × Value),
    (∀ dv ∈ des, ∃ fs ds, getItem dv.2 filesKey = .ok (.vlist fs) ∧
      getItem dv.2 dirsKey = .ok (.vlist ds) ∧
      (∀ x ∈ fs, ∃ s, x = Value.vstr s) ∧ (∀ x ∈ ds, ∃ s, x = Value.vstr s)) →
    (∀ kv ∈ tes, ∃ b, kv.2 = Value.vbytes b) →
    (∃ dv ∈ des, ∃ fs, getItem dv.2 filesKey = .ok (.vlist fs) ∧
      ∃ s, Value.vstr s ∈ fs ∧ dget tes (dv.1 ++ '/' :: s) = none) →
    ∃ k acts, extractLoop (.vdict tes) e des = (acts, some (.keyError k)) ∧
      dget tes k = none ∧ acts ≠ [] := by
  intro des
  induction des with
  | nil =>
    intro _ _ hm
    obtain ⟨dv, hdv, _⟩ := hm
    cases hdv
  | cons dv0 rest ih =>
    intro hwf htb hm
    obtain ⟨d, v⟩ := dv0
    obtain ⟨fs, ds, hfiles, hdirs, hfstr, hdstr⟩ := hwf _ (List.mem_cons_self _ _)
    obtain ⟨as1, hds⟩ : ∃ as1, dirSteps e d ds = (as1, none) :=
      ⟨(dirSteps e d ds).1, by rw [← dirSteps_none e d ds hdstr]⟩
    by_cases hmh : ∃ s, Value.vstr s ∈ fs ∧ dget tes (d ++ '/' :: s) = none
    · obtain ⟨k, hk2, hkn⟩ := fileSteps_missing tes e d fs hfstr htb hmh
      obtain ⟨as2, hfs⟩ : ∃ as2, fileSteps (.vdict tes) e d fs = (as2, some (.keyError k)) :=
        ⟨(fileSteps (.vdict tes) e d fs).1, by rw [← hk2]⟩
      refine ⟨k, FsAct.mkdir (pyJoin e (pySplitC '/' d)) :: (as1 ++ as2), ?_, hkn, by simp⟩
      simp [extractLoop, hfiles, hdirs, iterElems, hds, hfs]
    · have hall : ∀ s, Value.vstr s ∈ fs → ∃ b, dget tes (d ++ '/' :: s) = some (.vbytes b) := by
        intro s hs
        cases hlook : dget tes (d ++ '/' :: s) with
        | none => exact absurd ⟨s, hs, hlook⟩ hmh
        | some v' =>
          obtain ⟨b, hb⟩ := htb _ (dget_mem tes _ v' hlook)
          exact ⟨b, congrArg some hb⟩
      obtain ⟨as2, hfs⟩ : ∃ as2, fileSteps (.vdict tes) e d fs = (as2, none) :=
        ⟨(fileSteps (.vdict tes) e d fs).1, by rw [← fileSteps_none tes e d fs hfstr hall]⟩
      have hmrest : ∃ dv ∈ rest, ∃ fs', getItem dv.2 filesKey = .ok (.vlist fs') ∧
          ∃ s, Value.vstr s ∈ fs' ∧ dget tes (dv.1 ++ '/' :: s) = none := by
        obtain ⟨dv, hdvm, fs', hfs', s, hsm, hsn⟩ := hm
        rcases List.mem_cons.mp hdvm with he | hmr
        · subst he
          rw [hfiles] at hfs'
          have : fs = fs' := by
            have h1 : Value.vlist fs = Value.vlist fs' := by
              injection hfs'
            injection h1
          subst this
          exact absurd ⟨s, hsm, hsn⟩ hmh
        · exact ⟨dv, hmr, fs', hfs', s, hsm, hsn⟩
      obtain ⟨k, acts, hloop, hkn, hne⟩ :=
        ih (fun dv h => hwf dv (List.mem_cons_of_mem _ h)) htb hmrest
      refine ⟨k, FsAct.mkdir (pyJoin e (pySplitC '/' d)) :: (as1 ++ as2 ++ acts), ?_, hkn, by simp⟩
      simp [extractLoop, hfiles, hdirs, iterElems, hds, hfs, hloop]

/-- C6: when `dirinfo` lists, in an otherwise well-formed archive, a filename
whose joined path is absent from `tree`, `extract` aborts with the key-error
(file-not-found) kind for a missing key — propagated from the per-file
lookup, with no entry silently skipped — and filesystem actions have already
been performed before the failure (no ahead-of-time validation). -/
theorem c6_missing_propagation (pack : Pack) (tes des : List (Str × Value)) (epath : Str)
    (ht : pack.tree = .vdict tes) (hd : pack.dirinfo = .vdict des)
    (hwf : ∀ dv ∈ des, ∃ fs ds, getItem dv.2 filesKey = .ok (.vlist fs) ∧
      getItem dv.2 dirsKey = .ok (.vlist ds) ∧
      (∀ x ∈ fs, ∃ s, x = Value.vstr s) ∧ (∀ x ∈ ds, ∃ s, x = Value.vstr s))
    (htb : ∀ kv ∈ tes, ∃ b, kv.2 = Value.vbytes b)
    (hmiss : ∃ dv ∈ des, ∃ fs, getItem dv.2 filesKey = .ok (.vlist fs) ∧
      ∃ s, Value.vstr s ∈ fs ∧ dget tes (dv.1 ++ '/' :: s) = none) :
    (∃ k, (extract pack epath).2 = some (.keyError k) ∧ dget tes k = none) ∧
    (extract pack epath).1 ≠ [] := by
  obtain ⟨k, acts, hloop, hkn, hne⟩ := extractLoop_missing tes epath des hwf htb hmiss
  constructor
  · exact ⟨k, by simp [extract, ht, hd, hloop], hkn⟩
  · simp [extract, ht, hd, hloop, hne]

theorem c6_missing_propagation_witness :
    (extract ⟨[], .vdict [],
        .vdict [(['a'], .vdict [(filesKey, .vlist [.vstr ['b']]), (dirsKey, .vlist [])])]⟩
      []).2 = some (.keyError ['a', '/', 'b']) ∧
    (extract ⟨[], .vdict [],
        .vdict [(['a'], .vdict [(filesKey, .vlist [.vstr ['b']]), (dirsKey, .vlist [])])]⟩
      []).1 ≠ [] :=
  ⟨rfl,
   (c6_missing_propagation
      ⟨[], .vdict [],
        .vdict [(['a'], .vdict [(filesKey, .vlist [.vstr ['b']]), (dirsKey, .vlist [])])]⟩
      [] [(['a'], .vdict [(filesKey, .vlist [.vstr ['b']]), (dirsKey, .vlist [])])] []
      rfl rfl
      (by
        intro dv hdv
        simp only [List.mem_singleton] at hdv
        subst hdv
        exact ⟨[.vstr ['b']], [], rfl, rfl,
          by intro x hx; simp only [List.mem_singleton] at hx; exact ⟨['b'], hx⟩,
          by intro x hx; simp at hx⟩)
      (by intro kv hkv; simp at hkv)
      ⟨(['a'], .vdict [(filesKey, .vlist [.vstr ['b']]), (dirsKey, .vlist [])]),
        List.mem_cons_self _ _, [.vstr ['b']], rfl, ['b'], List.mem_cons_self _ _, rfl⟩).2⟩

/-! Lemmas about the emulator's path resolution. -/

theorem getLast?_ne_of_not_mem (s : Str) (hne : s ≠ []) (hnm : '/' ∉ s) :
    s.getLast? ≠ some '/' := by
  intro h
  have hx : s.getLast? = some (s.getLast hne) := List.getLast?_eq_getLast s hne
  rw [hx] at h
  have : s.getLast hne = '/' := by injection h
  exact hnm (this ▸ List.getLast_mem hne)

theorem getLast?_append_cons (l : Str) (c : Char) (m : Str) :
    (l ++ c :: m).getLast? = (c :: m).getLast? := by
  have h1 : ((c :: m).getLast?).isSome := by
    rw [List.getLast?_isSome]
    simp
  rw [List.getLast?_append, Option.or_of_isSome h1]

theorem normAcc_clean : ∀ (l : List Str) (acc : List Str),
    (∀ s ∈ l, s ≠ [] ∧ s ≠ ['.'] ∧ s ≠ ['.', '.']) → normAcc acc l = acc ++ l := by
  intro l
  induction l with
  | nil => intro acc _; simp [normAcc]
  | cons s rest ih =>
    intro acc h
    obtain ⟨h1, h2, h3⟩ := h s (List.mem_cons_self _ _)
    have hrest := fun x hx => h x (List.mem_cons_of_mem _ hx)
    simp only [normAcc]
    rw [if_neg (by simp [h1, h2]), if_neg h3, ih (acc ++ [s]) hrest]
    simp

theorem commonLen_append : ∀ (c a b : List Str), commonLen (c ++ a) (c ++ b) =
    c.length + commonLen a b := by
  intro c
  induction c with
  | nil => intro a b; simp [commonLen]
  | cons x c' ih =>
    intro a b
    simp only [List.cons_append, commonLen, if_true]
    show commonLen (c' ++ a) (c' ++ b) + 1 = (x :: c').length + commonLen a b
    rw [ih]
    simp only [List.length_cons]
    omega

theorem pySplitC_ne_nil (sep : Char) (s : Str) : pySplitC sep s ≠ [] := by
  cases s with
  | nil => simp [pySplitC]
  | cons c rest =>
    simp only [pySplitC]
    split
    · simp
    · split <;> simp

theorem pySplitC_append_of_not_mem (w : Str) (seg : Str) (segs : List Str)
    (hw : pySplitC '/' w = seg :: segs) :
    ∀ u : Str, '/' ∉ u → pySplitC '/' (u ++ w) = (u ++ seg) :: segs := by
  intro u
  induction u with
  | nil => intro _; simpa using hw
  | cons c u' ih =>
    intro hu
    have hc : c ≠ '/' := fun he => hu (he ▸ List.mem_cons_self c u')
    have h' := ih (fun hm => hu (List.mem_cons_of_mem c hm))
    rw [List.cons_append]
    unfold pySplitC
    rw [h']
    simp [hc]

theorem pySplitC_join_inv : ∀ (segs : List Str) (s0 : Str), '/' ∉ s0 →
    (∀ s ∈ segs, '/' ∉ s) →
    pySplitC '/' (s0 ++ segs.flatMap (fun s => '/' :: s)) = s0 :: segs := by
  intro segs
  induction segs with
  | nil =>
    intro s0 h0 _
    simp [pySplitC_of_not_mem '/' s0 h0]
  | cons s1 rest ih =>
    intro s0 h0 h
    have h1 := ih s1 (h s1 (List.mem_cons_self _ _)) (fun s hs => h s (List.mem_cons_of_mem _ hs))
    have hw : pySplitC '/' ('/' :: (s1 ++ rest.flatMap (fun s => '/' :: s))) =
        [] :: s1 :: rest := by
      simp [pySplitC, h1]
    have he : s0 ++ (s1 :: rest).flatMap (fun s => '/' :: s) =
        s0 ++ ('/' :: (s1 ++ rest.flatMap (fun s => '/' :: s))) := by
      simp
    rw [he, pySplitC_append_of_not_mem _ _ _ hw s0 h0]
    simp

theorem pyJoin_clean : ∀ (segs : List Str) (acc : Str),
    (∀ s ∈ segs, s ≠ [] ∧ '/' ∉ s) → acc ≠ [] → acc.getLast? ≠ some '/' →
    pyJoin acc segs = acc ++ segs.flatMap (fun s => '/' :: s) := by
  intro segs
  induction segs with
  | nil => intro acc _ _ _; simp [pyJoin]
  | cons b rest ih =>
    intro acc h hne hlast
    obtain ⟨hb1, hb2⟩ := h b (List.mem_cons_self _ _)
    have hhead : b.head? ≠ some '/' := by
      cases b with
      | nil => simp at hb1
      | cons b0 b' =>
        simp only [List.head?]
        intro hcon
        have : b0 = '/' := by injection hcon
        exact hb2 (this ▸ List.mem_cons_self b0 b')
    have hstep : pyJoin acc (b :: rest) = pyJoin (acc ++ '/' :: b) rest := by
      show pyJoin (if b.head? = some '/' then b
        else if acc = [] ∨ acc.getLast? = some '/' then acc ++ b
        else acc ++ '/' :: b) rest = pyJoin (acc ++ '/' :: b) rest
      rw [if_neg hhead, if_neg (not_or.mpr ⟨hne, hlast⟩)]
    have hacc' : (acc ++ '/' :: b).getLast? ≠ some '/' := by
      rw [getLast?_append_cons]
      have hcons : ('/' :: b).getLast? = b.getLast? := by
        cases b with
        | nil => simp at hb1
        | cons b0 b' => rfl
      rw [hcons]
      exact getLast?_ne_of_not_mem b hb1 hb2
    rw [hstep, ih (acc ++ '/' :: b) (fun s hs => h s (List.mem_cons_of_mem _ hs)) (by simp) hacc']
    simp

theorem flatMap_pySplitC : ∀ d : Str, (pySplitC '/' d).flatMap (fun s => '/' :: s) = '/' :: d := by
  intro d
  induction d with
  | nil => rfl
  | cons c rest ih =>
    cases hsp : pySplitC '/' rest with
    | nil => exact absurd hsp (pySplitC_ne_nil '/' rest)
    | cons seg segs =>
      rw [hsp] at ih
      by_cases hc : c = '/'
      · subst hc
        simp only [pySplitC, hsp, if_pos rfl, List.flatMap_cons, List.nil_append]
        simp only [List.flatMap_cons] at ih
        simp [ih]
      · simp only [pySplitC, hsp, if_neg hc, List.flatMap_cons] at ih ⊢
        have htail : seg ++ segs.flatMap (fun s => '/' :: s) = rest := by
          have := ih
          injection this
        simp [htail]

theorem commonLen_nil (l : List Str) : commonLen [] l = 0 := rfl

theorem pyRelpath_eq (cwd : List Str) (p : Str) (hp0 : p ≠ []) :
    pyRelpath cwd p resourcesS =
      (match List.replicate ((absComps cwd resourcesS).length -
          commonLen (absComps cwd resourcesS) (absComps cwd p)) ['.', '.'] ++
          (absComps cwd p).drop (commonLen (absComps cwd resourcesS) (absComps cwd p)) with
        | [] => some ['.']
        | r0 :: rrest => some (pyJoin r0 rrest)) := by
  unfold pyRelpath
  rw [if_neg hp0]

/-- C9 (amended): the emulator's `getfile` resolves its argument through
`relpath(filepath, "resources")`: a leading `resources` segment is stripped
and the remainder joined onto the base folder; when the anchor is absent the
path is not left unchanged — a `".."` (parent-directory) segment is
prepended, so the file is resolved against the parent of the base folder. -/
theorem c9_emulator_paths (cwd : List Str) (base p : Str)
    (hcwd : ∀ s ∈ cwd, s ≠ [] ∧ s ≠ ['.'] ∧ s ≠ ['.', '.'])
    (hp0 : p ≠ [])
    (hph : p.head? ≠ some '/')
    (hsegs : ∀ s ∈ pySplitC '/' p, s ≠ [] ∧ '/' ∉ s ∧ s ≠ ['.'] ∧ s ≠ ['.', '.']) :
    (∀ rest, pySplitC '/' p = resourcesS :: rest → rest ≠ [] →
      emuGetfilePath cwd base p = some (pyJoin base rest)) ∧
    ((pySplitC '/' p).head? ≠ some resourcesS →
      emuGetfilePath cwd base p = some (pyJoin base (['.', '.'] :: pySplitC '/' p))) := by
  have hcwdR : ∀ s ∈ cwd ++ [resourcesS], s ≠ [] ∧ s ≠ ['.'] ∧ s ≠ ['.', '.'] := by
    intro s hs
    rcases List.mem_append.mp hs with h | h
    · exact hcwd s h
    · simp only [List.mem_singleton] at h
      subst h
      exact ⟨by decide, by decide, by decide⟩
  have habsR : absComps cwd resourcesS = cwd ++ [resourcesS] := by
    unfold absComps
    rw [if_neg (by decide), pySplitC_of_not_mem '/' resourcesS (by decide),
      normAcc_clean (cwd ++ [resourcesS]) [] hcwdR]
    simp
  have hsegs' : ∀ s ∈ cwd ++ pySplitC '/' p, s ≠ [] ∧ s ≠ ['.'] ∧ s ≠ ['.', '.'] := by
    intro s hs
    rcases List.mem_append.mp hs with h | h
    · exact hcwd s h
    · obtain ⟨h1, _, h3, h4⟩ := hsegs s h
      exact ⟨h1, h3, h4⟩
  have habsP : absComps cwd p = cwd ++ pySplitC '/' p := by
    unfold absComps
    rw [if_neg hph, normAcc_clean (cwd ++ pySplitC '/' p) [] hsegs']
    simp
  constructor
  · intro rest hsp hrne
    cases rest with
    | nil => exact absurd rfl hrne
    | cons r0 rr =>
      have hr0 : r0 ∈ pySplitC '/' p := by
        rw [hsp]
        exact List.mem_cons_of_mem _ (List.mem_cons_self _ _)
      obtain ⟨hr01, hr02, _, _⟩ := hsegs r0 hr0
      have hrr : ∀ s ∈ rr, s ≠ [] ∧ '/' ∉ s := by
        intro s hs
        have hmem : s ∈ pySplitC '/' p := by
          rw [hsp]
          exact List.mem_cons_of_mem _ (List.mem_cons_of_mem _ hs)
        obtain ⟨h1, h2, _, _⟩ := hsegs s hmem
        exact ⟨h1, h2⟩
      have hcl : commonLen (cwd ++ [resourcesS]) (cwd ++ pySplitC '/' p) = cwd.length + 1 := by
        rw [hsp, commonLen_append]
        simp [commonLen, commonLen_nil]
      have hdrop : (cwd ++ pySplitC '/' p).drop (cwd.length + 1) = r0 :: rr := by
        rw [hsp]
        have he : cwd ++ resourcesS :: r0 :: rr = (cwd ++ [resourcesS]) ++ (r0 :: rr) := by simp
        rw [he, show cwd.length + 1 = (cwd ++ [resourcesS]).length by simp, List.drop_left]
      have hrel : pyRelpath cwd p resourcesS = some (pyJoin r0 rr) := by
        rw [pyRelpath_eq cwd p hp0, habsR, habsP, hcl, hdrop]
        simp [List.length_append]
      have hjoin : pyJoin r0 rr = r0 ++ rr.flatMap (fun s => '/' :: s) :=
        pyJoin_clean rr r0 hrr hr01 (getLast?_ne_of_not_mem r0 hr01 hr02)
      have hsplit2 : pySplitC '/' (pyJoin r0 rr) = r0 :: rr := by
        rw [hjoin]
        exact pySplitC_join_inv rr r0 hr02 (fun s hs => (hrr s hs).2)
      simp only [emuGetfilePath]
      rw [hrel]
      simp [hsplit2]
  · intro hhne
    cases hspl : pySplitC '/' p with
    | nil => exact absurd hspl (pySplitC_ne_nil '/' p)
    | cons s0 srest =>
      have hs0ne : resourcesS ≠ s0 := by
        intro he
        rw [hspl] at hhne
        exact hhne (by simp [List.head?, ← he])
      have hcl : commonLen (cwd ++ [resourcesS]) (cwd ++ pySplitC '/' p) = cwd.length := by
        rw [hspl, commonLen_append]
        simp [commonLen, if_neg hs0ne]
      have hdrop : (cwd ++ pySplitC '/' p).drop cwd.length = s0 :: srest := by
        rw [hspl, List.drop_left]
      have hclean : ∀ s ∈ pySplitC '/' p, s ≠ [] ∧ '/' ∉ s :=
        fun s hs => ⟨(hsegs s hs).1, (hsegs s hs).2.1⟩
      have hrel : pyRelpath cwd p resourcesS = some (pyJoin ['.', '.'] (pySplitC '/' p)) := by
        rw [pyRelpath_eq cwd p hp0, habsR, habsP, hcl, hdrop]
        have hone : (cwd ++ [resourcesS]).length - cwd.length = 1 := by simp
        rw [hone, hspl]
        simp [List.replicate]
      have hjoin : pyJoin ['.', '.'] (pySplitC '/' p) =
          ['.', '.'] ++ (pySplitC '/' p).flatMap (fun s => '/' :: s) :=
        pyJoin_clean (pySplitC '/' p) ['.', '.'] hclean (by decide) (by decide)
      have hsplit2 : pySplitC '/' (pyJoin ['.', '.'] (pySplitC '/' p)) =
          ['.', '.'] :: pySplitC '/' p := by
        rw [hjoin]
        exact pySplitC_join_inv (pySplitC '/' p) ['.', '.'] (by decide)
          (fun s hs => (hclean s hs).2)
      simp only [emuGetfilePath]
      rw [hrel]
      simp [hsplit2]
      rw [hspl]

theorem c9_emulator_paths_witness :
    emuGetfilePath [['h']] ['b', 'f'] (resourcesS ++ '/' :: ['a']) =
      some (pyJoin ['b', 'f'] [['a']]) :=
  (c9_emulator_paths [['h']] ['b', 'f'] (resourcesS ++ '/' :: ['a'])
    (by decide) (by decide) (by decide) (by decide)).1 [['a']] (by decide) (by decide)

/-- C9 counterexample: for the relative path `"a/b"` (no `resources` anchor)
with base folder `"base"`, the emulator opens `"base/../a/b"`, not the
claim's `"base/a/b"` — the path is not left unchanged when the anchor is
absent. -/
theorem c9_counterexample :
    emuGetfilePath [['c']] ['b', 'a', 's', 'e'] ['a', '/', 'b'] =
      some ['b', 'a', 's', 'e', '/', '.', '.', '/', 'a', '/', 'b'] ∧
    emuGetfilePath [['c']] ['b', 'a', 's', 'e'] ['a', '/', 'b'] ≠
      some (pyJoin ['b', 'a', 's', 'e'] (pySplitC '/' ['a', '/', 'b'])) := by
  constructor
  · rfl
  · decide

/-! Path shape and injectivity lemmas for extraction completeness. -/

theorem head?_ne_of_not_mem (s : Str) (hne : s ≠ []) (hnm : '/' ∉ s) :
    s.head? ≠ some '/' := by
  cases s with
  | nil => exact absurd rfl hne
  | cons c r =>
    simp only [List.head?]
    intro h
    have hc : c = '/' := by injection h
    exact hnm (hc ▸ List.mem_cons_self c r)

theorem pyJoin_root (e f : Str) (he1 : e ≠ []) (he2 : e.getLast? ≠ some '/')
    (hf : f ≠ [] ∧ '/' ∉ f) :
    pyJoin e (pySplitC '/' [] ++ [f]) = e ++ '/' :: f := by
  have h1 : pySplitC '/' ([] : Str) = [[]] := rfl
  rw [h1]
  have s1 : pyJoin e ([[]] ++ [f]) = pyJoin (e ++ '/' :: []) [f] := by
    show pyJoin (if ([] : Str).head? = some '/' then []
      else if e = [] ∨ e.getLast? = some '/' then e ++ [] else e ++ '/' :: []) [f] = _
    rw [if_neg (by simp), if_neg (not_or.mpr ⟨he1, he2⟩)]
  rw [s1]
  have s2 : pyJoin (e ++ '/' :: []) [f] = (e ++ '/' :: []) ++ f := by
    show pyJoin (if f.head? = some '/' then f
      else if (e ++ '/' :: []) = [] ∨ (e ++ '/' :: []).getLast? = some '/'
        then (e ++ '/' :: []) ++ f else (e ++ '/' :: []) ++ '/' :: f) [] = _
    rw [if_neg (head?_ne_of_not_mem f hf.1 hf.2),
      if_pos (Or.inr (by rw [getLast?_append_cons]; rfl))]
    rfl
  rw [s2]
  simp

theorem pyJoin_nonroot (e d f : Str) (he1 : e ≠ []) (he2 : e.getLast? ≠ some '/')
    (hd : ∀ s ∈ pySplitC '/' d, s ≠ [] ∧ '/' ∉ s) (hf : f ≠ [] ∧ '/' ∉ f) :
    pyJoin e (pySplitC '/' d ++ [f]) = e ++ '/' :: (d ++ '/' :: f) := by
  have hcl : ∀ s ∈ pySplitC '/' d ++ [f], s ≠ [] ∧ '/' ∉ s := by
    intro s hs
    rcases List.mem_append.mp hs with h | h
    · exact hd s h
    · simp only [List.mem_singleton] at h
      subst h
      exact hf
  rw [pyJoin_clean (pySplitC '/' d ++ [f]) e hcl he1 he2, List.flatMap_append,
    flatMap_pySplitC d]
  simp

theorem joined_path_inj (e d1 d2 f1 f2 : Str) (he1 : e ≠ []) (he2 : e.getLast? ≠ some '/')
    (hd1 : cleanDir d1) (hd2 : cleanDir d2) (hf1 : cleanSeg f1) (hf2 : cleanSeg f2)
    (heq : pyJoin e (pySplitC '/' d1 ++ [f1]) = pyJoin e (pySplitC '/' d2 ++ [f2])) :
    d1 ++ '/' :: f1 = d2 ++ '/' :: f2 := by
  rcases hd1 with h1 | h1 <;> rcases hd2 with h2 | h2
  · subst h1
    subst h2
    rw [pyJoin_root e f1 he1 he2 hf1, pyJoin_root e f2 he1 he2 hf2] at heq
    have hff : '/' :: f1 = '/' :: f2 := List.append_cancel_left heq
    have : f1 = f2 := by injection hff
    rw [this]
  · subst h1
    rw [pyJoin_root e f1 he1 he2 hf1, pyJoin_nonroot e d2 f2 he1 he2 h2 hf2] at heq
    have hff : '/' :: f1 = '/' :: (d2 ++ '/' :: f2) := List.append_cancel_left heq
    have hf1e : f1 = d2 ++ '/' :: f2 := by injection hff
    exact absurd (hf1e ▸ List.mem_append.mpr (Or.inr (List.mem_cons_self _ _))) hf1.2
  · subst h2
    rw [pyJoin_root e f2 he1 he2 hf2, pyJoin_nonroot e d1 f1 he1 he2 h1 hf1] at heq
    have hff : '/' :: (d1 ++ '/' :: f1) = '/' :: f2 := List.append_cancel_left heq
    have hf2e : f2 = d1 ++ '/' :: f1 := by
      have : d1 ++ '/' :: f1 = f2 := by injection hff
      exact this.symm
    exact absurd (hf2e ▸ List.mem_append.mpr (Or.inr (List.mem_cons_self _ _))) hf2.2
  · rw [pyJoin_nonroot e d1 f1 he1 he2 h1 hf1, pyJoin_nonroot e d2 f2 he1 he2 h2 hf2] at heq
    have hff : '/' :: (d1 ++ '/' :: f1) = '/' :: (d2 ++ '/' :: f2) :=
      List.append_cancel_left heq
    injection hff

theorem noLoneOpen_of_not_mem (p : Str) (b : List Nat) (acts : List FsAct)
    (h : FsAct.openw p ∉ acts) : noLoneOpen p b acts := by
  intro l1 l2 he
  rw [he] at h
  exact absurd (List.mem_append.mpr (Or.inr (List.mem_cons_self _ _))) h

theorem noLoneOpen_append (p : Str) (b : List Nat) (A B : List FsAct)
    (hA : noLoneOpen p b A) (hB : noLoneOpen p b B) : noLoneOpen p b (A ++ B) := by
  intro l1 l2 he
  rcases List.append_eq_append_iff.mp he with ⟨a', ha1, ha2⟩ | ⟨c', hc1, hc2⟩
  · exact hB a' l2 ha2
  · cases c' with
    | nil =>
      simp only [List.nil_append] at hc2
      exact hB [] l2 (by rw [List.nil_append]; exact hc2.symm)
    | cons x c'' =>
      rw [List.cons_append] at hc2
      have hx : FsAct.openw p = x := by injection hc2
      have hl2 : l2 = c'' ++ B := by injection hc2
      obtain ⟨l3, hl3⟩ := hA l1 c'' (by rw [hc1, ← hx])
      exact ⟨l3 ++ B, by rw [hl2, hl3, List.cons_append]⟩

theorem noLoneOpen_pair (p q : Str) (b c : List Nat) (h : q = p → c = b) :
    noLoneOpen p b [.openw q, .write q c] := by
  intro l1 l2 he
  cases l1 with
  | nil =>
    simp only [List.nil_append] at he
    have h1 : FsAct.openw q = FsAct.openw p := by injection he
    have h2 : [FsAct.write q c] = l2 := by injection he
    have hq : q = p := by injection h1
    refine ⟨[], ?_⟩
    rw [← h2, hq, h hq]
  | cons x l1' =>
    cases l1' with
    | nil =>
      simp only [List.cons_append, List.nil_append] at he
      have h2 : FsAct.write q c :: ([] : List FsAct) = FsAct.openw p :: l2 := by injection he
      have h3 : FsAct.write q c = FsAct.openw p := by injection h2
      cases h3
    | cons y l1'' =>
      simp only [List.cons_append] at he
      have h2 : FsAct.write q c :: ([] : List FsAct) = y :: (l1'' ++ FsAct.openw p :: l2) := by
        injection he
      have h3 : ([] : List FsAct) = l1'' ++ FsAct.openw p :: l2 := by injection h2
      exact absurd h3.symm (by simp)

theorem writesConst_suffix (p : Str) (b : List Nat) (a : FsAct) (rest : List FsAct)
    (h : writesConst p b (a :: rest)) : writesConst p b rest :=
  fun b' hb' => h b' (List.mem_cons_of_mem _ hb')

theorem noLoneOpen_suffix (p : Str) (b : List Nat) (a : FsAct) (rest : List FsAct)
    (h : noLoneOpen p b (a :: rest)) : noLoneOpen p b rest := by
  intro l1 l2 he
  exact h (a :: l1) l2 (by rw [he, List.cons_append])

theorem finalContent_isSome (p : Str) (b : List Nat) : ∀ acts : List FsAct,
    FsAct.write p b ∈ acts → (finalContent acts p).isSome := by
  intro acts
  induction acts with
  | nil => intro h; cases h
  | cons a rest ih =>
    intro h
    simp only [finalContent]
    cases hf : finalContent rest p with
    | some c => simp
    | none =>
      rcases List.mem_cons.mp h with he | hm
      · subst he
        simp
      · have hsm := ih hm
        rw [hf] at hsm
        simp at hsm

theorem finalContent_val (p : Str) (b : List Nat) : ∀ acts : List FsAct,
    noLoneOpen p b acts → writesConst p b acts →
    ∀ c, finalContent acts p = some c → c = b := by
  intro acts
  induction acts with
  | nil =>
    intro _ _ c hc
    simp [finalContent] at hc
  | cons a rest ih =>
    intro hnl hwc c hc
    simp only [finalContent] at hc
    cases hf : finalContent rest p with
    | some c' =>
      rw [hf] at hc
      have hcc : c = c' := (Option.some.inj hc).symm
      rw [hcc]
      exact ih (noLoneOpen_suffix p b a rest hnl) (writesConst_suffix p b a rest hwc) c' hf
    | none =>
      rw [hf] at hc
      cases a with
      | write q b' =>
        by_cases hq : q = p
        · simp only [hq, if_pos rfl] at hc
          have hcb : c = b' := (Option.some.inj hc).symm
          rw [hcb]
          exact hwc b' (hq ▸ List.mem_cons_self _ _)
        · simp [hq] at hc
      | openw q =>
        by_cases hq : q = p
        · obtain ⟨l3, hl3⟩ := hnl [] rest (by rw [hq, List.nil_append])
          have hsm := finalContent_isSome p b rest (hl3 ▸ List.mem_cons_self _ _)
          rw [hf] at hsm
          simp at hsm
        · simp [hq] at hc
      | mkdir q => simp at hc

theorem finalContent_eq (p : Str) (b : List Nat) (acts : List FsAct)
    (hnl : noLoneOpen p b acts) (hwc : writesConst p b acts)
    (hm : FsAct.write p b ∈ acts) : finalContent acts p = some b := by
  have h1 := finalContent_isSome p b acts hm
  cases hf : finalContent acts p with
  | none => rw [hf] at h1; simp at h1
  | some c => rw [finalContent_val p b acts hnl hwc c hf]

theorem strsOf_map (fs : List Str) : strsOf (fs.map Value.vstr) = fs := by
  induction fs with
  | nil => rfl
  | cons x rest ih =>
    simp only [strsOf] at ih ⊢
    simp [List.flatMap_cons, ih]

theorem filesOfV_eq (v : Value) (fs : List Str)
    (h : getItem v filesKey = .ok (.vlist (fs.map Value.vstr))) : filesOfV v = fs := by
  simp [filesOfV, h, strsOf_map]

theorem dirsOfV_eq (v : Value) (ds : List Str)
    (h : getItem v dirsKey = .ok (.vlist (ds.map Value.vstr))) : dirsOfV v = ds := by
  simp [dirsOfV, h, strsOf_map]

theorem dirSteps_eq (e d : Str) : ∀ ds : List Str,
    dirSteps e d (ds.map Value.vstr) =
      (ds.map (fun s => FsAct.mkdir (pyJoin e (pySplitC '/' d ++ [s]))), none) := by
  intro ds
  induction ds with
  | nil => rfl
  | cons s rest ih => simp [dirSteps, ih]

theorem fileSteps_eq (tes : List (Str × Value)) (e d : Str) : ∀ fs : List Str,
    (∀ f ∈ fs, ∃ b, dget tes (d ++ '/' :: f) = some (.vbytes b)) →
    fileSteps (.vdict tes) e d (fs.map Value.vstr) =
      (entryFileActs (.vdict tes) e d fs, none) := by
  intro fs
  induction fs with
  | nil => intro _; rfl
  | cons f rest ih =>
    intro h
    obtain ⟨b, hb⟩ := h f (List.mem_cons_self _ _)
    have hbytes : treeBytes (.vdict tes) (d ++ '/' :: f) = b := by
      simp [treeBytes, hb]
    simp [fileSteps, exportfileActs, hb, entryFileActs, List.flatMap_cons,
      ih (fun f' hf' => h f' (List.mem_cons_of_mem _ hf')), hbytes]

theorem extractLoop_eq (tes : List (Str × Value)) (e : Str) : ∀ des : List (Str × Value),
    (∀ dv ∈ des, ∃ (fs ds : List Str),
      getItem dv.2 filesKey = .ok (.vlist (fs.map Value.vstr)) ∧
      getItem dv.2 dirsKey = .ok (.vlist (ds.map Value.vstr)) ∧
      ∀ f ∈ fs, ∃ b, dget tes (dv.1 ++ '/' :: f) = some (.vbytes b)) →
    extractLoop (.vdict tes) e des = (allActs (.vdict tes) e des, none) := by
  intro des
  induction des with
  | nil => intro _; rfl
  | cons dv0 rest ih =>
    intro h
    obtain ⟨d, v⟩ := dv0
    obtain ⟨fs, ds, hf, hdd, hpres⟩ := h _ (List.mem_cons_self _ _)
    have hrest := ih (fun dv hdv => h dv (List.mem_cons_of_mem _ hdv))
    have hfv : filesOfV v = fs := filesOfV_eq v fs hf
    have hdv : dirsOfV v = ds := dirsOfV_eq v ds hdd
    simp [extractLoop, hf, hdd, iterElems, dirSteps_eq, fileSteps_eq tes e d fs hpres,
      hrest, allActs, List.flatMap_cons, entryActsD, hfv, hdv]

theorem mem_allActs_shape (tree : Value) (e : Str) (des : List (Str × Value)) (a : FsAct)
    (ha : a ∈ allActs tree e des) :
    (∃ q, a = .mkdir q) ∨ ∃ dv ∈ des, ∃ f ∈ filesOfV dv.2,
      (a = .openw (pyJoin e (pySplitC '/' dv.1 ++ [f])) ∨
       a = .write (pyJoin e (pySplitC '/' dv.1 ++ [f])) (treeBytes tree (dv.1 ++ '/' :: f))) := by
  rw [allActs, List.mem_flatMap] at ha
  obtain ⟨dv, hdv, haent⟩ := ha
  rw [entryActsD, List.mem_cons] at haent
  rcases haent with h | h
  · exact Or.inl ⟨_, h⟩
  · rw [List.mem_append] at h
    rcases h with h | h
    · rw [List.mem_map] at h
      obtain ⟨s, _, hs⟩ := h
      exact Or.inl ⟨_, hs.symm⟩
    · rw [entryFileActs, List.mem_flatMap] at h
      obtain ⟨f, hf, hmem⟩ := h
      rcases List.mem_cons.mp hmem with h1 | h1
      · exact Or.inr ⟨dv, hdv, f, hf, Or.inl h1⟩
      · rcases List.mem_cons.mp h1 with h2 | h2
        · exact Or.inr ⟨dv, hdv, f, hf, Or.inr h2⟩
        · cases h2

theorem mem_allActs_of_entry (tree : Value) (e : Str) (des : List (Str × Value))
    (dv : Str × Value) (hdv : dv ∈ des) (a : FsAct) (haent : a ∈ entryActsD tree e dv) :
    a ∈ allActs tree e des := by
  rw [allActs, List.mem_flatMap]
  exact ⟨dv, hdv, haent⟩

theorem noLoneOpen_entryFileActs (tree : Value) (e d : Str) (p : Str) (b : List Nat) :
    ∀ fs : List Str,
    (∀ f ∈ fs, pyJoin e (pySplitC '/' d ++ [f]) = p → treeBytes tree (d ++ '/' :: f) = b) →
    noLoneOpen p b (entryFileActs tree e d fs) := by
  intro fs
  induction fs with
  | nil =>
    intro _
    exact noLoneOpen_of_not_mem p b _ (by simp [entryFileActs])
  | cons f rest ih =>
    intro h
    have he : entryFileActs tree e d (f :: rest) =
        [.openw (pyJoin e (pySplitC '/' d ++ [f])),
         .write (pyJoin e (pySplitC '/' d ++ [f])) (treeBytes tree (d ++ '/' :: f))] ++
        entryFileActs tree e d rest := by
      simp [entryFileActs, List.flatMap_cons]
    rw [he]
    exact noLoneOpen_append p b _ _
      (noLoneOpen_pair p _ b _ (h f (List.mem_cons_self _ _)))
      (ih (fun f' hf' => h f' (List.mem_cons_of_mem _ hf')))

theorem noLoneOpen_allActs (tree : Value) (e : Str) (p : Str) (b : List Nat) :
    ∀ des : List (Str × Value),
    (∀ dv ∈ des, ∀ f ∈ filesOfV dv.2, pyJoin e (pySplitC '/' dv.1 ++ [f]) = p →
      treeBytes tree (dv.1 ++ '/' :: f) = b) →
    noLoneOpen p b (allActs tree e des) := by
  intro des
  induction des with
  | nil =>
    intro _
    exact noLoneOpen_of_not_mem p b _ (by simp [allActs])
  | cons dv rest ih =>
    intro h
    have he : allActs tree e (dv :: rest) = entryActsD tree e dv ++ allActs tree e rest := by
      simp [allActs, List.flatMap_cons]
    rw [he]
    refine noLoneOpen_append p b _ _ ?_ (ih (fun dv' hdv' => h dv' (List.mem_cons_of_mem _ hdv')))
    have he2 : entryActsD tree e dv =
        [FsAct.mkdir (pyJoin e (pySplitC '/' dv.1))] ++
        ((dirsOfV dv.2).map (fun s => FsAct.mkdir (pyJoin e (pySplitC '/' dv.1 ++ [s]))) ++
          entryFileActs tree e dv.1 (filesOfV dv.2)) := by
      simp [entryActsD]
    rw [he2]
    refine noLoneOpen_append p b _ _ (noLoneOpen_of_not_mem p b _ (by simp)) ?_
    refine noLoneOpen_append p b _ _ (noLoneOpen_of_not_mem p b _ ?_) ?_
    · simp [List.mem_map]
    · exact noLoneOpen_entryFileActs tree e dv.1 p b (filesOfV dv.2)
        (h dv (List.mem_cons_self _ _))

/-- C8: for a self-consistent archive (well-formed dirinfo entries with clean
names whose listed files are all present as byte strings), `extract(dest)`
succeeds, creates every directory and every listed subdirectory, and leaves
at `dest/<dirPath>/<filename>` a file holding exactly
`tree[dirPath + "/" + filename]` for every pair implied by `dirinfo`
(directory creation is `makedirs(..., exist_ok=True)`, so pre-existing
directories are not an error — `mkdir` actions always succeed). -/
theorem c8_extract_complete (pack : Pack) (tes des : List (Str × Value)) (epath : Str)
    (ht : pack.tree = .vdict tes) (hd : pack.dirinfo = .vdict des)
    (he1 : epath ≠ []) (he2 : epath.getLast? ≠ some '/')
    (hwf : ∀ dv ∈ des, ∃ (fs ds : List Str),
      getItem dv.2 filesKey = .ok (.vlist (fs.map Value.vstr)) ∧
      getItem dv.2 dirsKey = .ok (.vlist (ds.map Value.vstr)) ∧ cleanDir dv.1 ∧
      ∀ f ∈ fs, cleanSeg f ∧ ∃ b, dget tes (dv.1 ++ '/' :: f) = some (.vbytes b)) :
    (extract pack epath).2 = none ∧
    ∀ dv ∈ des,
      FsAct.mkdir (pyJoin epath (pySplitC '/' dv.1)) ∈ (extract pack epath).1 ∧
      (∀ s ∈ dirsOfV dv.2,
        FsAct.mkdir (pyJoin epath (pySplitC '/' dv.1 ++ [s])) ∈ (extract pack epath).1) ∧
      (∀ f ∈ filesOfV dv.2,
        finalContent (extract pack epath).1 (pyJoin epath (pySplitC '/' dv.1 ++ [f])) =
          some (treeBytes (.vdict tes) (dv.1 ++ '/' :: f))) := by
  have hrun : extract pack epath = (allActs (.vdict tes) epath des, none) := by
    simp only [extract, hd, ht]
    exact extractLoop_eq tes epath des (fun dv hdv => by
      obtain ⟨fs, ds, h1, h2, _, h4⟩ := hwf dv hdv
      exact ⟨fs, ds, h1, h2, fun f hf => (h4 f hf).2⟩)
  refine ⟨by rw [hrun], ?_⟩
  intro dv hdv
  obtain ⟨fs, ds, hf, hdd, hcd, hfp⟩ := hwf dv hdv
  have hfv : filesOfV dv.2 = fs := filesOfV_eq dv.2 fs hf
  refine ⟨?_, ?_, ?_⟩
  · rw [hrun]
    exact mem_allActs_of_entry _ _ _ dv hdv _ (List.mem_cons_self _ _)
  · intro s hs
    rw [hrun]
    refine mem_allActs_of_entry _ _ _ dv hdv _ ?_
    rw [entryActsD]
    exact List.mem_cons_of_mem _ (List.mem_append.mpr (Or.inl (List.mem_map.mpr ⟨s, hs, rfl⟩)))
  · intro f hfm
    rw [hfv] at hfm
    obtain ⟨hcf, b, hb⟩ := hfp f hfm
    have huni : ∀ dv' ∈ des, ∀ f' ∈ filesOfV dv'.2,
        pyJoin epath (pySplitC '/' dv'.1 ++ [f']) = pyJoin epath (pySplitC '/' dv.1 ++ [f]) →
        treeBytes (.vdict tes) (dv'.1 ++ '/' :: f') =
          treeBytes (.vdict tes) (dv.1 ++ '/' :: f) := by
      intro dv' hdv' f' hf' hpe
      obtain ⟨fs', ds', hf'eq, _, hcd', hfp'⟩ := hwf dv' hdv'
      rw [filesOfV_eq dv'.2 fs' hf'eq] at hf'
      have hcf' : cleanSeg f' := (hfp' f' hf').1
      have hkey := joined_path_inj epath dv'.1 dv.1 f' f he1 he2 hcd' hcd hcf' hcf hpe
      rw [hkey]
    have hm : FsAct.write (pyJoin epath (pySplitC '/' dv.1 ++ [f]))
        (treeBytes (.vdict tes) (dv.1 ++ '/' :: f)) ∈ allActs (.vdict tes) epath des := by
      refine mem_allActs_of_entry _ _ _ dv hdv _ ?_
      rw [entryActsD]
      refine List.mem_cons_of_mem _ (List.mem_append.mpr (Or.inr ?_))
      rw [entryFileActs, List.mem_flatMap]
      refine ⟨f, by rw [hfv]; exact hfm, ?_⟩
      simp
    have hwc : writesConst (pyJoin epath (pySplitC '/' dv.1 ++ [f]))
        (treeBytes (.vdict tes) (dv.1 ++ '/' :: f)) (allActs (.vdict tes) epath des) := by
      intro b' hb'
      rcases mem_allActs_shape _ _ _ _ hb' with ⟨q, habs⟩ | ⟨dv', hdv', f', hf', hsh⟩
      · simp at habs
      · rcases hsh with h1 | h1
        · simp at h1
        · injection h1 with hP hB
          rw [hB]
          exact huni dv' hdv' f' hf' (by rw [← hP])
    have hnl : noLoneOpen (pyJoin epath (pySplitC '/' dv.1 ++ [f]))
        (treeBytes (.vdict tes) (dv.1 ++ '/' :: f)) (allActs (.vdict tes) epath des) :=
      noLoneOpen_allActs _ _ _ _ des huni
    rw [hrun]
    exact finalContent_eq _ _ _ hnl hwc hm

theorem c8_extract_complete_witness :
    (extract ⟨[], .vdict [(['a', '/', 'b'], .vbytes [9])],
        .vdict [(['a'], .vdict [(filesKey, .vlist [.vstr ['b']]),
          (dirsKey, .vlist [.vstr ['c']])])]⟩ ['o']).2 = none ∧
    FsAct.mkdir (pyJoin ['o'] (pySplitC '/' ['a'])) ∈
      (extract ⟨[], .vdict [(['a', '/', 'b'], .vbytes [9])],
        .vdict [(['a'], .vdict [(filesKey, .vlist [.vstr ['b']]),
          (dirsKey, .vlist [.vstr ['c']])])]⟩ ['o']).1 ∧
    FsAct.mkdir (pyJoin ['o'] (pySplitC '/' ['a'] ++ [['c']])) ∈
      (extract ⟨[], .vdict [(['a', '/', 'b'], .vbytes [9])],
        .vdict [(['a'], .vdict [(filesKey, .vlist [.vstr ['b']]),
          (dirsKey, .vlist [.vstr ['c']])])]⟩ ['o']).1 ∧
    finalContent (extract ⟨[], .vdict [(['a', '/', 'b'], .vbytes [9])],
        .vdict [(['a'], .vdict [(filesKey, .vlist [.vstr ['b']]),
          (dirsKey, .vlist [.vstr ['c']])])]⟩ ['o']).1
      (pyJoin ['o'] (pySplitC '/' ['a'] ++ [['b']])) =
      some (treeBytes (.vdict [(['a', '/', 'b'], .vbytes [9])]) (['a'] ++ '/' :: ['b'])) := by
  have hwf1 : ∀ dv ∈ [((['a'] : Str),
      Value.vdict [(filesKey, Value.vlist [.vstr ['b']]), (dirsKey, Value.vlist [.vstr ['c']])])],
      ∃ (fs ds : List Str),
      getItem dv.2 filesKey = .ok (.vlist (fs.map Value.vstr)) ∧
      getItem dv.2 dirsKey = .ok (.vlist (ds.map Value.vstr)) ∧ cleanDir dv.1 ∧
      ∀ f ∈ fs, cleanSeg f ∧
        ∃ b, dget [(['a', '/', 'b'], Value.vbytes [9])] (dv.1 ++ '/' :: f) =
          some (.vbytes b) := by
    intro dv hdv
    simp only [List.mem_singleton] at hdv
    subst hdv
    refine ⟨[['b']], [['c']], rfl, rfl, Or.inr ?_, ?_⟩
    · intro s hs
      rw [show pySplitC '/' ['a'] = [['a']] from rfl] at hs
      simp only [List.mem_singleton] at hs
      subst hs
      exact ⟨by decide, by decide⟩
    · intro f hf
      simp only [List.mem_singleton] at hf
      subst hf
      exact ⟨⟨by decide, by decide⟩, [9], rfl⟩
  have H := c8_extract_complete
    ⟨[], .vdict [(['a', '/', 'b'], .vbytes [9])],
      .vdict [(['a'], .vdict [(filesKey, .vlist [.vstr ['b']]), (dirsKey, .vlist [.vstr ['c']])])]⟩
    [(['a', '/', 'b'], .vbytes [9])]
    [((['a'] : Str),
      Value.vdict [(filesKey, Value.vlist [.vstr ['b']]), (dirsKey, Value.vlist [.vstr ['c']])])]
    ['o'] rfl rfl (by decide) (by decide) hwf1
  have H2 := H.2 _ (List.mem_cons_self _ _)
  exact ⟨H.1, H2.1, H2.2.1 ['c'] (by decide), H2.2.2 ['b'] (by decide)⟩
